import Mathlib

/-
  Verification of the JSON <-> TOON codec (ToonConverter) of this repository.

  The embedding translates the TypeScript source in src/unnamed/part_000
  (the `ToonConverter` class and the module-level `parseValue` helper) into
  Lean definitions.  JavaScript strings are modelled as lists of characters
  (`Str`), JavaScript objects used as string-keyed records are modelled as
  association lists with in-place update, and JavaScript numbers are modelled
  on their integer fragment (JSON numbers appearing in values are embedded as
  `Int`; floating-point surface syntax and float formatting are outside the
  model, as is the platform `JSON.parse`, which is taken as a parameter, and
  `JSON.stringify`, so the decoder returns the JSON value itself).
-/

/-- JavaScript strings, modelled as lists of characters. -/
abbrev Str := List Char

/-- Whitespace test used by the source's `trim`, `search(\S)` and `parseInt`
    (the common characters; exotic Unicode whitespace is not used by the codec). -/
def isWSc (c : Char) : Bool := c.isWhitespace

/-- JavaScript `String.prototype.trim`: drop whitespace from both ends. -/
def jsTrim (s : Str) : Str :=
  ((s.dropWhile isWSc).reverse.dropWhile isWSc).reverse

/-- JavaScript `str.split('\n')` (part_000 line 165). -/
def splitNl : Str → List Str
  | [] => [[]]
  | c :: rest =>
    match splitNl rest with
    | [] => [[]]
    | l :: ls => if c = '\n' then [] :: l :: ls else (c :: l) :: ls

/-- JavaScript `lines.join('\n')` (part_000 line 160). -/
def joinNl : List Str → Str
  | [] => []
  | [l] => l
  | l :: l' :: rest => l ++ '\n' :: joinNl (l' :: rest)

/-- `line.search(\S)` for a non-blank line: the count of leading whitespace
    characters (part_000 line 199). -/
def leadCount (l : Str) : Int := ((l.takeWhile isWSc).length : Int)

/-- Decimal digit test (used to model `parseInt` and the digit runs of
    `Number`'s string grammar). -/
def isDigitCh (c : Char) : Bool := 48 ≤ c.toNat && c.toNat ≤ 57

/-- Numeric value of a decimal digit character. -/
def digVal (c : Char) : Nat := c.toNat - 48

/-- The decimal digit character for a value below ten. -/
def digitCh : Nat → Char
  | 0 => '0'
  | 1 => '1'
  | 2 => '2'
  | 3 => '3'
  | 4 => '4'
  | 5 => '5'
  | 6 => '6'
  | 7 => '7'
  | 8 => '8'
  | _ => '9'

/-- Value of a string of decimal digits. -/
def readDigits (s : Str) : Nat := s.foldl (fun a c => 10 * a + digVal c) 0

/-- Fuelled decimal rendering of a natural number (most significant digit
    first); the fuel is always sufficient at the call site in `natToStr`. -/
def natToStrAux : Nat → Nat → Str
  | 0, _ => []
  | fuel + 1, n =>
    if n < 10 then [digitCh n] else natToStrAux fuel (n / 10) ++ [digitCh (n % 10)]

/-- Decimal rendering of a natural number, as JavaScript `String(n)`. -/
def natToStr (n : Nat) : Str := natToStrAux (n + 1) n

/-- JavaScript `String(n)` / `n.toString()` on the integer fragment of numbers
    (part_000 lines 35 and 69; JavaScript's switch to exponential notation for
    magnitudes of 1e21 and above is outside the model). -/
def intToStr (n : Int) : Str :=
  if n < 0 then '-' :: natToStr n.natAbs else natToStr n.toNat

/-- JavaScript `s.padStart(2, '0')` (part_000 line 35). -/
def padStart2 (s : Str) : Str :=
  if 2 ≤ s.length then s else List.replicate (2 - s.length) '0' ++ s

/-- Leading-digit part of JavaScript `parseInt(s, 10)`: the value of the
    maximal digit prefix, or `none` when there is no digit. -/
def parseIntDigits (r : Str) : Option Nat :=
  let ds := r.takeWhile isDigitCh
  if ds.isEmpty then none else some (readDigits ds)

/-- JavaScript `parseInt(t, 10)` (part_000 line 26): skip leading whitespace,
    read an optional sign and then a maximal digit prefix; `none` models `NaN`. -/
def jsParseIntCore : Str → Option Int
  | [] => none
  | c :: r =>
    if c = '-' then (parseIntDigits r).map (fun v => -(v : Int))
    else if c = '+' then (parseIntDigits r).map (fun v => (v : Int))
    else (parseIntDigits (c :: r)).map (fun v => (v : Int))

/-- `parseInt` proper: leading whitespace skipped, then the signed digit
    prefix. -/
def jsParseInt (s : Str) : Option Int := jsParseIntCore (s.dropWhile isWSc)

/-- Hexadecimal digit test (`Number` on `0x`/`0X` literals). -/
def isHexDigitCh (c : Char) : Bool :=
  isDigitCh c || (97 ≤ c.toNat && c.toNat ≤ 102) || (65 ≤ c.toNat && c.toNat ≤ 70)

/-- Numeric value of a hexadecimal digit character. -/
def hexVal (c : Char) : Nat :=
  if isDigitCh c then digVal c
  else if 97 ≤ c.toNat && c.toNat ≤ 102 then c.toNat - 87
  else c.toNat - 55

/-- Octal digit test (`Number` on `0o`/`0O` literals). -/
def isOctDigitCh (c : Char) : Bool := 48 ≤ c.toNat && c.toNat ≤ 55

/-- Binary digit test (`Number` on `0b`/`0B` literals). -/
def isBinDigitCh (c : Char) : Bool := c.toNat = 48 || c.toNat = 49

/-- Value of a digit string in base `b`. -/
def readRadix (b : Nat) (val : Char → Nat) (s : Str) : Nat :=
  s.foldl (fun a c => b * a + val c) 0

/-- The exponent part of the string numeric grammar, required to span the
    whole remainder of the text: nothing left means exponent 0; `e`/`E`, an
    optional sign and a non-empty digit run give the signed exponent; any
    other remainder fails the parse. -/
def parseExpPart : Str → Option Int
  | [] => some 0
  | c :: rest =>
    if c = 'e' ∨ c = 'E' then
      match rest with
      | '+' :: ds =>
        if !ds.isEmpty && ds.all isDigitCh then some ((readDigits ds : Int)) else none
      | '-' :: ds =>
        if !ds.isEmpty && ds.all isDigitCh then some (-(readDigits ds : Int)) else none
      | ds =>
        if !ds.isEmpty && ds.all isDigitCh then some ((readDigits ds : Int)) else none
    else none

/-- The unsigned decimal literal of the string numeric grammar, after its
    maximal leading digit run `intPart` has been split off: an optional dot
    with further digits and an optional exponent.  The result is the digit
    string value `D`, the fraction length `fl` and the exponent `e`, encoding
    the exact value D · 10^(e − fl). -/
def parseDecTail (intPart rest : Str) : Option (Nat × Nat × Int) :=
  if rest.head? = some '.' then
    let rest2 := rest.tail
    let fracPart := rest2.takeWhile isDigitCh
    let rest3 := rest2.dropWhile isDigitCh
    if intPart.isEmpty && fracPart.isEmpty then none
    else (parseExpPart rest3).map
      (fun e => (readDigits (intPart ++ fracPart), fracPart.length, e))
  else
    if intPart.isEmpty then none
    else (parseExpPart rest).map (fun e => (readDigits intPart, 0, e))

/-- Parse an unsigned decimal numeral spanning the whole string. -/
def parseDec (s : Str) : Option (Nat × Nat × Int) :=
  parseDecTail (s.takeWhile isDigitCh) (s.dropWhile isDigitCh)

/-- Truncation toward zero of D · 10^(e − fl), the magnitude of an accepted
    decimal numeral; exact whenever that value is an integer. -/
def decTrunc (D fl : Nat) (e : Int) : Nat :=
  if (fl : Int) ≤ e then D * 10 ^ (e - fl).toNat else D / 10 ^ ((fl : Int) - e).toNat

/-- A signed decimal numeral or `Infinity` spanning the whole string; `none`
    models `NaN`.  The numeric value is embedded on the integer fragment:
    exact for integral numerals, truncated toward zero for fractional ones,
    and 0 as a placeholder for the infinities (both outside the fragment, and
    excluded from every value-level statement). -/
def jsDec (sign : Int) (s : Str) : Option Int :=
  if s = ("Infinity").toList then some 0
  else (parseDec s).map (fun t => sign * (decTrunc t.1 t.2.1 t.2.2 : Int))

/-- A non-decimal integer literal: a non-empty digit run in the given base. -/
def jsRadix (pred : Char → Bool) (b : Nat) (val : Char → Nat) (ds : Str) :
    Option Int :=
  if !ds.isEmpty && ds.all pred then some ((readRadix b val ds : Nat) : Int)
  else none

/-- The branch of `Number` for text starting with `0`: a hex/octal/binary
    literal after `0x`/`0o`/`0b` (no sign allowed), else an ordinary decimal
    numeral.  Bare `0` converts to 0. -/
def jsNumZero : Str → Option Int
  | [] => some 0
  | c2 :: r2 =>
    if c2 = 'x' ∨ c2 = 'X' then jsRadix isHexDigitCh 16 hexVal r2
    else if c2 = 'o' ∨ c2 = 'O' then jsRadix isOctDigitCh 8 digVal r2
    else if c2 = 'b' ∨ c2 = 'B' then jsRadix isBinDigitCh 2 digVal r2
    else jsDec 1 ('0' :: c2 :: r2)

/-- JavaScript `Number(v)` string conversion (part_000 line 326) on trimmed
    text, following the ECMAScript string numeric grammar: the empty string
    converts to 0; an optionally signed decimal numeral (digits, optional
    fraction, optional exponent) or `Infinity` converts to its value; an
    unsigned `0x`/`0o`/`0b` integer literal converts in its base; everything
    else is `NaN` (`none`).  Numeric values are embedded on the integer
    fragment (see `jsDec`); the accept/reject classification is exact. -/
def jsNumCore : Str → Option Int
  | [] => some 0
  | c :: r =>
    if c = '+' then jsDec 1 r
    else if c = '-' then jsDec (-1) r
    else if c = '0' then jsNumZero r
    else jsDec 1 (c :: r)

/-- `Number(v)` proper: conversion of the trimmed text. -/
def jsNum (s : Str) : Option Int := jsNumCore (jsTrim s)

/-- Lookup in a string-keyed record modelled as an association list
    (first match; records built by the code keep keys unique). -/
def alook {α : Type} : List (Str × α) → Str → Option α
  | [], _ => none
  | p :: rest, k => if p.1 = k then some p.2 else alook rest k

/-- JavaScript record assignment `m[k] = v`: replace in place when the key is
    present, otherwise append (insertion order is preserved). -/
def aset {α : Type} : List (Str × α) → Str → α → List (Str × α)
  | [], k, v => [(k, v)]
  | p :: rest, k, v => if p.1 = k then (k, v) :: rest else p :: aset rest k v

/-- The converter's dictionary state: `keyToToken`, `tokenToKey` and
    `nextTokenId` (part_000 lines 13-15). -/
structure Conv where
  keyToToken : List (Str × Str)
  tokenToKey : List (Str × Str)
  nextTokenId : Int

/-- The `ToonConverter` constructor (part_000 lines 17-29): copy the initial
    map, build the reverse map by folding over its entries, and seed the
    counter with one more than the largest `parseInt`-parseable token value,
    or 1 when there is none. -/
def mkConv (initialMap : List (Str × Str)) : Conv :=
  let t2k := initialMap.foldl (fun acc kv => aset acc kv.2 kv.1) []
  let ids := initialMap.filterMap (fun kv => jsParseInt kv.2)
  ⟨initialMap, t2k,
    match ids with
    | [] => 1
    | x :: xs => xs.foldl max x + 1⟩

/-- The minting step of `getToken` (part_000 lines 35-39). -/
def mintToken (c : Conv) (key : Str) : Str × Conv :=
  let t := padStart2 (intToStr c.nextTokenId)
  (t, ⟨aset c.keyToToken key t, aset c.tokenToKey t key, c.nextTokenId + 1⟩)

/-- `getToken` (part_000 lines 31-40).  `if (this.keyToToken[key])` is a
    truthiness test, so a key mapped to the empty string is treated as absent. -/
def getToken (c : Conv) (key : Str) : Str × Conv :=
  match alook c.keyToToken key with
  | some t => if t.isEmpty then mintToken c key else (t, c)
  | none => mintToken c key

/-- The `UNKNOWN_<token>` placeholder (part_000 line 43). -/
def unknownTok (t : Str) : Str := ("UNKNOWN_").toList ++ t

/-- `getKey` (part_000 lines 42-44).  `tokenToKey[token] || placeholder` is a
    truthiness test, so a token registered to the empty-string key also yields
    the placeholder. -/
def getKey (c : Conv) (token : Str) : Str :=
  match alook c.tokenToKey token with
  | some k => if k.isEmpty then unknownTok token else k
  | none => unknownTok token

/-- JSON values (both directions of the codec); numbers are embedded on their
    integer fragment. -/
inductive Json where
  | null
  | bool (b : Bool)
  | num (n : Int)
  | str (s : Str)
  | arr (elems : List Json)
  | obj (entries : List (Str × Json))

/-- `typeof item === 'object' && item !== null` on JSON values. -/
def isComplex : Json → Bool
  | .arr _ => true
  | .obj _ => true
  | _ => false

/-- `"  ".repeat(level)` (part_000 line 62). -/
def indentStr (level : Nat) : Str := List.replicate (2 * level) ' '

/-- The non-recursive rendering `process` performs on primitives and empty
    containers (part_000 lines 64-69, 71 and 132): the return value of
    `process(item, 0)` whenever the call sites use it, since they only use it
    on non-complex values (the container cases here are the empty-container
    returns; non-empty containers never have their return value used). -/
def scalarRepr : Json → Str
  | .null => ("null").toList
  | .bool b => if b then ("yes").toList else ("no").toList
  | .num n => intToStr n
  | .str s => s
  | .arr _ => ("[]").toList
  | .obj _ => ("\x7b\x7d").toList

mutual

/-- The encoder's recursive `process` (part_000 lines 61-151), returning the
    string the call returns, the lines it pushes (in order) and the updated
    dictionary.  Primitive cases (and empty containers) return their rendering
    and push nothing; non-empty container cases push lines and return the
    empty string. -/
def process (c : Conv) (item : Json) (level : Nat) : Str × List Str × Conv :=
  match item with
  | .arr xs =>
    if xs.isEmpty then (("[]").toList, [], c)
    else
      let (ls, c') := processArr c xs level
      ([], ls, c')
  | .obj kvs =>
    if kvs.isEmpty then (("\x7b\x7d").toList, [], c)
    else
      let (ls, c') := processObjEntries c kvs level
      ([], ls, c')
  | v => (scalarRepr v, [], c)

/-- The `item.forEach(subItem => ...)` loop over array elements
    (part_000 lines 73-128).  For a nested array element the source pushes the
    dash line and calls `process(subItem, level + 1)`, discarding the returned
    string; only the pushed lines and dictionary effects remain, which is
    exactly the element loop on its elements (an empty nested array therefore
    contributes nothing beyond its dash line, since its `"[]"` return value is
    discarded at line 89). -/
def processArr (c : Conv) (xs : List Json) (level : Nat) : List Str × Conv :=
  match xs with
  | [] => ([], c)
  | x :: rest =>
    match x with
    | .arr ys =>
      let (ls, c1) := processArr c ys (level + 1)
      let (lsRest, c2) := processArr c1 rest level
      ((indentStr level ++ [ '-' ]) :: ls ++ lsRest, c2)
    | .obj fields =>
      let (ls, c1) := processArrFields c fields level
      let (lsRest, c2) := processArr c1 rest level
      ((indentStr level ++ [ '-' ]) :: ls ++ lsRest, c2)
    | _ =>
      let (lsRest, c2) := processArr c rest level
      ((indentStr level ++ '-' :: ' ' :: scalarRepr x) :: lsRest, c2)

/-- The key loop for an object appearing inside an array
    (part_000 lines 92-122; the source's `idx === 0` and `else` branches are
    textually identical, so the index plays no role). -/
def processArrFields (c : Conv) (fields : List (Str × Json)) (level : Nat) :
    List Str × Conv :=
  match fields with
  | [] => ([], c)
  | (k, v) :: rest =>
    let (tok, c1) := getToken c k
    let line := indentStr level ++ ' ' :: ' ' :: tok ++ ':' :: ' ' ::
      (if isComplex v then [] else scalarRepr v)
    let (lsV, c2) :=
      if isComplex v then
        let (_, ls, c') := process c1 v (level + 2)
        (ls, c')
      else ([], c1)
    let (lsRest, c3) := processArrFields c2 rest level
    (line :: lsV ++ lsRest, c3)

/-- The `Object.entries(item).forEach(...)` loop over object entries
    (part_000 lines 134-147). -/
def processObjEntries (c : Conv) (entries : List (Str × Json)) (level : Nat) :
    List Str × Conv :=
  match entries with
  | [] => ([], c)
  | (k, v) :: rest =>
    let (tok, c1) := getToken c k
    if isComplex v then
      let (_, ls, c2) := process c1 v (level + 1)
      let (lsRest, c3) := processObjEntries c2 rest level
      ((indentStr level ++ tok ++ [ ':' ]) :: ls ++ lsRest, c3)
    else
      let (lsRest, c3) := processObjEntries c1 rest level
      ((indentStr level ++ tok ++ ':' :: ' ' :: scalarRepr v) :: lsRest, c3)

end

/-- `jsonToToon` on an in-memory JSON value (part_000 lines 153-160): objects
    and arrays accumulate lines joined by newlines; a root primitive returns
    its rendering directly (note that `null` fails the `obj !== null` test and
    takes the primitive path). -/
def jsonToToon (c : Conv) (v : Json) : Str × Conv :=
  match v with
  | .arr xs =>
    let (_, ls, c') := process c (.arr xs) 0
    (joinNl ls, c')
  | .obj kvs =>
    let (_, ls, c') := process c (.obj kvs) 0
    (joinNl ls, c')
  | _ => ((process c v 0).1, c)

/-- The argument of `jsonToToon` in the source is `any`: either raw text or an
    in-memory JSON value. -/
inductive EncInput where
  | raw (s : Str)
  | val (v : Json)

/-- The entry dispatch of `jsonToToon` (part_000 lines 51-57): a string
    argument is always parsed as JSON text (`typeof jsonInput === 'string'`),
    and a parse failure raises the `Invalid JSON input` error before any line
    is emitted or the dictionary is touched.  The platform `JSON.parse` is not
    part of the repository and is taken as a parameter `parseJson`, with
    `none` standing for a parse exception. -/
def jsonToToonEntry (parseJson : Str → Option Json) (c : Conv) :
    EncInput → Except Str (Str × Conv)
  | .raw s =>
    match parseJson s with
    | none => .error (("Invalid JSON input").toList)
    | some v => .ok (jsonToToon c v)
  | .val (.str s) =>
    match parseJson s with
    | none => .error (("Invalid JSON input").toList)
    | some v => .ok (jsonToToon c v)
  | .val v => .ok (jsonToToon c v)

/-- A node of the decoder's intermediate parse tree (part_000 lines 177-184).
    Parent links are represented by the parsing stack instead of pointers. -/
inductive Node where
  | mk (indent : Int) (key : Option Str) (value : Option Str)
      (children : List Node) (isArrayItem : Bool)

def Node.indent : Node → Int
  | .mk i _ _ _ _ => i

def Node.key : Node → Option Str
  | .mk _ k _ _ _ => k

def Node.value : Node → Option Str
  | .mk _ _ v _ _ => v

def Node.children : Node → List Node
  | .mk _ _ _ ch _ => ch

def Node.isArrayItem : Node → Bool
  | .mk _ _ _ _ a => a

/-- The synthetic root (part_000 line 186). -/
def rootNode : Node := .mk (-1) none none [] false

/-- `parent.children.push(child)` (part_000 lines 217 and 241). -/
def addChild : Node → Node → Node
  | .mk i k v ch a, c => .mk i k v (ch ++ [c]) a

/-- The walk of `findParent` (part_000 lines 190-196) expressed on the stack
    of nodes from the most recently added node up to the root: each node whose
    indentation is at least `i` is popped and attached as the last child of
    its parent.  The stack always ends at the synthetic root of indentation
    -1, so for a line indentation `i ≥ 0` the walk stops inside the list; the
    `[]` case is unreachable then. -/
def findParentAux (i : Int) : Node → List Node → List Node
  | cur, [] => [cur]
  | cur, next :: rest =>
    if i ≤ cur.indent then findParentAux i (addChild next cur) rest
    else cur :: next :: rest

/-- Resolve the parent for indentation `i`: pop every node of indentation
    at least `i`; the new top of the resulting stack is the parent. -/
def findParent (st : List Node) (i : Int) : List Node :=
  match st with
  | [] => []
  | top :: rest => findParentAux i top rest

/-- Create a node, attach it under its resolved parent and make it the most
    recently added node (part_000 lines 207-218 and 231-242). -/
def pushNode (st : List Node) (n : Node) : List Node :=
  n :: findParent st n.indent

/-- True when the trimmed content contains a colon (`content.includes(':')`,
    part_000 line 225). -/
def includesColon (s : Str) : Bool := s.any (fun c => c == ':')

/-- Process one non-blank line of pass 1 (part_000 lines 198-246): a line
    whose trimmed content starts with a dash becomes an array-item node; a
    line containing a colon becomes a key/value node split at the first colon;
    any other line is dropped. -/
def processLine (st : List Node) (line : Str) : List Node :=
  let indent := leadCount line
  let content := jsTrim line
  if content.head? = some '-' then
    pushNode st (.mk indent none
      (if (jsTrim (content.drop 1)).isEmpty then none
       else some (jsTrim (content.drop 1))) [] true)
  else if includesColon content then
    pushNode st (.mk indent (some (jsTrim (content.takeWhile (fun c => c != ':'))))
      (if (jsTrim ((content.dropWhile (fun c => c != ':')).drop 1)).isEmpty then none
       else some (jsTrim ((content.dropWhile (fun c => c != ':')).drop 1))) [] false)
  else st

/-- Attach the pending stack bottom-up; the result is the fully built root
    (the stack models the parent pointers, so finishing pass 1 is collapsing
    the remaining path into the root). -/
def collapseAux : Node → List Node → Node
  | cur, [] => cur
  | cur, next :: rest => collapseAux (addChild next cur) rest

/-- Collapse a parsing stack to its root node. -/
def collapse : List Node → Node
  | [] => rootNode
  | top :: rest => collapseAux top rest

/-- Pass 1 of `toonToJson` (part_000 lines 165-246): split into lines, keep
    the non-blank ones, and fold them into the tree. -/
def buildRoot (input : Str) : Node :=
  let lines := (splitNl input).filter (fun l => !(jsTrim l).isEmpty)
  collapse (lines.foldl processLine [rootNode])

/-- Numeric result or literal-string fallback of `parseValue`
    (part_000 lines 326-327). -/
def numOrStr : Option Int → Str → Json
  | some n, _ => .num n
  | none, v => .str v

/-- The module-level `parseValue` (part_000 lines 321-328) on an inline value
    that is either absent (`null`) or a string.  Note the source has no case
    for the text `null`, which therefore falls through to the later cases. -/
def parseValue : Option Str → Json
  | none => .null
  | some s =>
    if jsTrim s = ("yes").toList then .bool true
    else if jsTrim s = ("no").toList then .bool false
    else numOrStr (jsNum (jsTrim s)) (jsTrim s)

/-- JavaScript coerces an absent key to the property name `undefined` when
    used as an index (`this.getKey(c.key!)` with a null key would look up the
    string `undefined`); nodes made by pass 1 for object entries always carry
    a key, so this is a formality. -/
def keyOrUndef : Option Str → Str
  | some s => s
  | none => ("undefined").toList

/-- Truthiness of `c.key` (part_000 lines 281 and 307): present and non-empty. -/
def truthyKey : Option Str → Bool
  | some s => !s.isEmpty
  | none => false

mutual

/-- Pass 2, `convertNode` (part_000 lines 249-291): a childless node is its
    parsed scalar; otherwise homogeneous children decide array versus object,
    and a mixed sibling set degrades to an object that skips children with a
    falsy key. -/
def convertNode (c : Conv) : Node → Json
  | .mk _ _ value ch _ =>
    if ch.isEmpty then parseValue value
    else if ch.all Node.isArrayItem then
      .arr (convertArrItems c ch)
    else if ch.all (fun n => !n.isArrayItem) then
      .obj (convertObjAcc c ch [])
    else
      .obj (convertMixedAcc c ch [])

/-- The array branch of `convertNode` (part_000 lines 259-264). -/
def convertArrItems (c : Conv) : List Node → List Json
  | [] => []
  | n :: rest =>
    (if n.value.isSome && n.children.isEmpty then parseValue n.value
     else if !n.children.isEmpty then convertNode c n
     else .null) :: convertArrItems c rest

/-- The object branch of `convertNode` (part_000 lines 266-275): entries are
    written into the result record in order (`obj[realKey] = ...`). -/
def convertObjAcc (c : Conv) : List Node → List (Str × Json) → List (Str × Json)
  | [], acc => acc
  | n :: rest, acc =>
    let realKey := getKey c (keyOrUndef n.key)
    let v :=
      if n.value.isSome && n.children.isEmpty then parseValue n.value
      else convertNode c n
    convertObjAcc c rest (aset acc realKey v)

/-- The mixed-children fallback of `convertNode` (part_000 lines 277-286):
    treat as an object, skipping children whose key is falsy. -/
def convertMixedAcc (c : Conv) : List Node → List (Str × Json) → List (Str × Json)
  | [], acc => acc
  | n :: rest, acc =>
    if truthyKey n.key then
      let realKey := getKey c (keyOrUndef n.key)
      let v :=
        if n.children.isEmpty then parseValue n.value else convertNode c n
      convertMixedAcc c rest (aset acc realKey v)
    else convertMixedAcc c rest acc

end

/-- `toonToJson` (part_000 lines 164-318): build the tree, then classify the
    root's children (`every` is vacuously true on no children, so empty input
    decodes to the empty array); the returned JSON value is what the source
    passes to `JSON.stringify` (serialization itself is not modelled). -/
def toonToJson (c : Conv) (input : Str) : Json :=
  let root := buildRoot input
  let ch := root.children
  if ch.all Node.isArrayItem then
    .arr (ch.map (fun n =>
      if n.children.isEmpty then parseValue n.value else convertNode c n))
  else
    .obj (ch.foldl (fun acc n =>
      if truthyKey n.key then
        aset acc (getKey c (keyOrUndef n.key))
          (if n.children.isEmpty then parseValue n.value else convertNode c n)
      else acc) [])

/-! ### Definitions used by the verification (invariants and expected shapes) -/

/-- `nextTokenId` dominates every numeric token in use (the source maintains
    this from the constructor on). -/
def TokBound (c : Conv) : Prop :=
  ∀ t k, alook c.tokenToKey t = some k → ∀ v, jsParseInt t = some v → v < c.nextTokenId

/-- The dictionary invariants of a converter reachable from a well-formed
    start: the reverse map inverts the forward map, numeric tokens are below
    the counter, the counter is positive, and tokens handed out for keys are
    non-empty digit strings. -/
structure GoodConv (c : Conv) : Prop where
  inv : ∀ k t, alook c.keyToToken k = some t → alook c.tokenToKey t = some k
  bound : TokBound c
  pos : 1 ≤ c.nextTokenId
  digits : ∀ k t, alook c.keyToToken k = some t → t ≠ [] → ∀ ch ∈ t, isDigitCh ch = true

/-- Dictionary evolution: truthy key bindings and all token bindings persist,
    and the counter never decreases. -/
def ConvExt (c c' : Conv) : Prop :=
  (∀ k t, alook c.keyToToken k = some t → t ≠ [] → alook c'.keyToToken k = some t) ∧
  (∀ t k, alook c.tokenToKey t = some k → alook c'.tokenToKey t = some k) ∧
  c.nextTokenId ≤ c'.nextTokenId

mutual

/-- The parse forest that pass 1 of the decoder recovers from the lines the
    encoder emits for a container at nesting level `L` (same token-minting
    order as `process`). -/
def encForest (c : Conv) : Json → Nat → List Node × Conv
  | .arr xs, L => encForestArr c xs L
  | .obj kvs, L => encForestObj c kvs L
  | _, _ => ([], c)

/-- Expected nodes for the elements of an array at level `L` (indent `2L`). -/
def encForestArr (c : Conv) : List Json → Nat → List Node × Conv
  | [], _ => ([], c)
  | x :: rest, L =>
    match x with
    | .arr ys =>
      let (cn, c1) := encForestArr c ys (L + 1)
      let (ns, c2) := encForestArr c1 rest L
      (Node.mk (2 * L : Nat) none none cn true :: ns, c2)
    | .obj fields =>
      let (cn, c1) := encForestFields c fields L
      let (ns, c2) := encForestArr c1 rest L
      (Node.mk (2 * L : Nat) none none cn true :: ns, c2)
    | _ =>
      let (ns, c2) := encForestArr c rest L
      (Node.mk (2 * L : Nat) none (some (scalarRepr x)) [] true :: ns, c2)

/-- Expected nodes for the fields of an object inside an array at level `L`
    (indent `2L + 2`, values recursed at level `L + 2`). -/
def encForestFields (c : Conv) : List (Str × Json) → Nat → List Node × Conv
  | [], _ => ([], c)
  | (k, v) :: rest, L =>
    let (tok, c1) := getToken c k
    if isComplex v then
      let (cn, c2) := encForest c1 v (L + 2)
      let (ns, c3) := encForestFields c2 rest L
      (Node.mk (2 * L + 2 : Nat) (some tok) none cn false :: ns, c3)
    else
      let (ns, c3) := encForestFields c1 rest L
      (Node.mk (2 * L + 2 : Nat) (some tok) (some (scalarRepr v)) [] false :: ns, c3)

/-- Expected nodes for the entries of an object at level `L` (indent `2L`). -/
def encForestObj (c : Conv) : List (Str × Json) → Nat → List Node × Conv
  | [], _ => ([], c)
  | (k, v) :: rest, L =>
    let (tok, c1) := getToken c k
    if isComplex v then
      let (cn, c2) := encForest c1 v (L + 1)
      let (ns, c3) := encForestObj c2 rest L
      (Node.mk (2 * L : Nat) (some tok) none cn false :: ns, c3)
    else
      let (ns, c3) := encForestObj c1 rest L
      (Node.mk (2 * L : Nat) (some tok) (some (scalarRepr v)) [] false :: ns, c3)

end

theorem isWSc_false_of_big (c : Char) (h : 33 ≤ c.toNat) : isWSc c = false := by
  unfold isWSc Char.isWhitespace
  simp only [Bool.or_eq_false_iff, decide_eq_false_iff_not]
  refine ⟨⟨⟨?_, ?_⟩, ?_⟩, ?_⟩ <;> (intro e; subst e; revert h; decide)

theorem isDigitCh_toNat (c : Char) (h : isDigitCh c = true) :
    48 ≤ c.toNat ∧ c.toNat ≤ 57 := by
  unfold isDigitCh at h
  simp only [Bool.and_eq_true, decide_eq_true_eq] at h
  exact h

theorem isDigitCh_not_ws (c : Char) (h : isDigitCh c = true) : isWSc c = false := by
  have := isDigitCh_toNat c h
  exact isWSc_false_of_big c (by omega)

theorem isDigitCh_ne (c : Char) (h : isDigitCh c = true) :
    c ≠ ':' ∧ c ≠ '-' ∧ c ≠ '\n' ∧ c ≠ '+' ∧ c ≠ 'y' ∧ c ≠ 'n' := by
  have := isDigitCh_toNat c h
  refine ⟨?_, ?_, ?_, ?_, ?_, ?_⟩ <;> (intro e; subst e; revert this; decide)

theorem dash_not_ws : isWSc '-' = false := by decide

theorem isDigitCh_digitCh (d : Nat) : isDigitCh (digitCh d) = true := by
  unfold digitCh
  split <;> decide

theorem digVal_digitCh (d : Nat) (h : d < 10) : digVal (digitCh d) = d := by
  interval_cases d <;> decide

theorem dropWhile_head_nonws (s : Str) (c : Char) (hc : s.head? = some c)
    (h : isWSc c = false) : s.dropWhile isWSc = s := by
  cases s with
  | nil => simp at hc
  | cons a t =>
    simp only [List.head?_cons, Option.some.injEq] at hc
    subst hc
    simp [List.dropWhile_cons, h]

theorem readDigits_append_one (a : Str) (c : Char) :
    readDigits (a ++ [c]) = 10 * readDigits a + digVal c := by
  simp [readDigits, List.foldl_append]

theorem readDigits_replicate_zero (k : Nat) (s : Str) :
    readDigits (List.replicate k '0' ++ s) = readDigits s := by
  induction k with
  | zero => simp
  | succ n ih =>
    simp only [List.replicate_succ, List.cons_append]
    unfold readDigits at *
    simpa using ih

theorem natToStrAux_spec (fuel : Nat) :
    ∀ n, n < fuel →
      natToStrAux fuel n ≠ [] ∧
      (∀ c ∈ natToStrAux fuel n, isDigitCh c = true) ∧
      readDigits (natToStrAux fuel n) = n := by
  induction fuel with
  | zero => intro n hn; omega
  | succ f ih =>
    intro n hn
    unfold natToStrAux
    by_cases h10 : n < 10
    · simp only [if_pos h10]
      refine ⟨by simp, ?_, ?_⟩
      · intro c hc
        simp only [List.mem_singleton] at hc
        subst hc
        exact isDigitCh_digitCh n
      · show readDigits ([] ++ [digitCh n]) = n
        rw [readDigits_append_one]
        simp [readDigits, digVal_digitCh n h10]
    · simp only [if_neg h10]
      have hdiv : n / 10 < f := by omega
      obtain ⟨hne, hdig, hval⟩ := ih (n / 10) hdiv
      refine ⟨by simp [hne], ?_, ?_⟩
      · intro c hc
        rcases List.mem_append.mp hc with h | h
        · exact hdig c h
        · simp only [List.mem_singleton] at h
          subst h
          exact isDigitCh_digitCh (n % 10)
      · rw [readDigits_append_one, hval, digVal_digitCh (n % 10) (by omega)]
        omega

theorem natToStr_spec (n : Nat) :
    natToStr n ≠ [] ∧ (∀ c ∈ natToStr n, isDigitCh c = true) ∧
      readDigits (natToStr n) = n :=
  natToStrAux_spec (n + 1) n (by omega)

theorem takeWhile_digits_self (s : Str) (h : ∀ c ∈ s, isDigitCh c = true) :
    s.takeWhile isDigitCh = s := by
  induction s with
  | nil => rfl
  | cons c t ih =>
    rw [List.takeWhile_cons, if_pos (h c (by simp))]
    rw [ih (fun x hx => h x (by simp [hx]))]

theorem jsParseIntCore_dash (r : Str) :
    jsParseIntCore ('-' :: r) = (parseIntDigits r).map (fun v => -(v : Int)) := by
  simp [jsParseIntCore]

theorem jsParseInt_all_digits (s : Str) (hne : s ≠ [])
    (h : ∀ c ∈ s, isDigitCh c = true) :
    jsParseInt s = some ((readDigits s : Int)) := by
  obtain ⟨c, t, he⟩ := List.exists_cons_of_ne_nil hne
  subst he
  have hcd : isDigitCh c = true := h c (by simp)
  have hcne := isDigitCh_ne c hcd
  unfold jsParseInt
  rw [dropWhile_head_nonws _ c (by simp) (isDigitCh_not_ws c hcd)]
  simp only [jsParseIntCore]
  rw [if_neg hcne.2.1, if_neg hcne.2.2.2.1]
  unfold parseIntDigits
  rw [takeWhile_digits_self _ h]
  simp

theorem padStart2_all_digits (s : Str) (h : ∀ c ∈ s, isDigitCh c = true) :
    ∀ c ∈ padStart2 s, isDigitCh c = true := by
  unfold padStart2
  split
  · exact h
  · intro c hc
    rcases List.mem_append.mp hc with hm | hm
    · rw [List.eq_of_mem_replicate hm]
      decide
    · exact h c hm

theorem padStart2_ne_nil (s : Str) (h : s ≠ []) : padStart2 s ≠ [] := by
  unfold padStart2
  split
  · exact h
  · simp [h]

theorem readDigits_padStart2 (s : Str) : readDigits (padStart2 s) = readDigits s := by
  unfold padStart2
  split
  · rfl
  · exact readDigits_replicate_zero _ s

/-- The numeric value of a freshly minted token is the counter value. -/
theorem jsParseInt_mint (n : Int) (hn : 1 ≤ n) :
    jsParseInt (padStart2 (intToStr n)) = some n := by
  have h0 : ¬ n < 0 := by omega
  unfold intToStr
  rw [if_neg h0]
  obtain ⟨hne, hdig, hval⟩ := natToStr_spec n.toNat
  rw [jsParseInt_all_digits _ (padStart2_ne_nil _ hne) (padStart2_all_digits _ hdig)]
  rw [readDigits_padStart2, hval]
  congr 1
  omega

theorem mintTok_digits (n : Int) (hn : 1 ≤ n) :
    padStart2 (intToStr n) ≠ [] ∧
      ∀ c ∈ padStart2 (intToStr n), isDigitCh c = true := by
  have h0 : ¬ n < 0 := by omega
  unfold intToStr
  rw [if_neg h0]
  obtain ⟨hne, hdig, _⟩ := natToStr_spec n.toNat
  exact ⟨padStart2_ne_nil _ hne, padStart2_all_digits _ hdig⟩

/-! ### parseValue on encoder-rendered scalars -/

theorem parseValue_yes : parseValue (some (("yes").toList)) = Json.bool true := rfl

theorem parseValue_no : parseValue (some (("no").toList)) = Json.bool false := rfl

theorem alook_aset_self {α : Type} (m : List (Str × α)) (k : Str) (v : α) :
    alook (aset m k v) k = some v := by
  induction m with
  | nil => simp [aset, alook]
  | cons p rest ih =>
    by_cases h : p.1 = k
    · simp [aset, h, alook]
    · simp [aset, h, alook, ih]

theorem alook_aset_ne {α : Type} (m : List (Str × α)) (k k' : Str) (v : α)
    (h : k' ≠ k) : alook (aset m k v) k' = alook m k' := by
  have h' : k ≠ k' := Ne.symm h
  induction m with
  | nil => simp [aset, alook, h']
  | cons p rest ih =>
    by_cases hp : p.1 = k
    · simp [aset, alook, hp, h']
    · simp only [aset, if_neg hp]
      by_cases hp' : p.1 = k'
      · simp [alook, hp']
      · simp [alook, hp', ih]

theorem aset_fresh {α : Type} (m : List (Str × α)) (k : Str) (v : α)
    (h : alook m k = none) : aset m k v = m ++ [(k, v)] := by
  induction m with
  | nil => simp [aset]
  | cons p rest ih =>
    by_cases hp : p.1 = k
    · simp [alook, hp] at h
    · simp only [alook, if_neg hp] at h
      simp [aset, hp, ih h]

theorem length_aset_fresh {α : Type} (m : List (Str × α)) (k : Str) (v : α)
    (h : alook m k = none) : (aset m k v).length = m.length + 1 := by
  rw [aset_fresh m k v h]
  simp

theorem length_aset_present {α : Type} (m : List (Str × α)) (k : Str) (v w : α)
    (h : alook m k = some w) : (aset m k v).length = m.length := by
  induction m with
  | nil => simp [alook] at h
  | cons p rest ih =>
    by_cases hp : p.1 = k
    · simp [aset, hp]
    · simp only [alook, if_neg hp] at h
      simp [aset, hp, ih h]

theorem padStart2_ne_nil_any (s : Str) : padStart2 s ≠ [] := by
  unfold padStart2
  split
  · next h =>
    intro he
    rw [he] at h
    simp at h
  · intro he
    have := congrArg List.length he
    simp at this
    omega

/-- The minted token string parses back to the counter value, for every
    counter value (positive, zero or negative). -/
theorem jsParseInt_mint_all (n : Int) :
    jsParseInt (padStart2 (intToStr n)) = some n := by
  by_cases hn : n < 0
  · obtain ⟨hne, hdig, hval⟩ := natToStr_spec n.natAbs
    have hlen : 2 ≤ ('-' :: natToStr n.natAbs).length := by
      obtain ⟨c, t, he⟩ := List.exists_cons_of_ne_nil hne
      rw [he]
      simp
    unfold intToStr
    rw [if_pos hn]
    unfold padStart2
    rw [if_pos hlen]
    unfold jsParseInt
    rw [dropWhile_head_nonws _ '-' (by simp) dash_not_ws]
    rw [jsParseIntCore_dash]
    unfold parseIntDigits
    rw [takeWhile_digits_self _ hdig]
    have hie : (natToStr n.natAbs).isEmpty = false := by
      obtain ⟨c, t, he⟩ := List.exists_cons_of_ne_nil hne
      rw [he]; rfl
    simp [hie, hval]
    rw [abs_of_neg hn]
    ring
  · have h0 : 0 ≤ n := by omega
    unfold intToStr
    rw [if_neg hn]
    obtain ⟨hne, hdig, hval⟩ := natToStr_spec n.toNat
    rw [jsParseInt_all_digits _ (padStart2_ne_nil _ hne) (padStart2_all_digits _ hdig)]
    rw [readDigits_padStart2, hval]
    congr 1
    omega

theorem convExt_refl (c : Conv) : ConvExt c c :=
  ⟨fun _ _ h _ => h, fun _ _ h => h, le_refl _⟩

theorem getToken_eq_mint_none (c : Conv) (k : Str)
    (h : alook c.keyToToken k = none) : getToken c k = mintToken c k := by
  unfold getToken
  rw [h]

theorem getToken_eq_mint_empty (c : Conv) (k : Str) (t : Str)
    (h : alook c.keyToToken k = some t) (ht : t.isEmpty = true) :
    getToken c k = mintToken c k := by
  unfold getToken
  rw [h]
  show (if t.isEmpty = true then mintToken c k else (t, c)) = mintToken c k
  rw [if_pos ht]

theorem getToken_eq_found (c : Conv) (k : Str) (t : Str)
    (h : alook c.keyToToken k = some t) (ht : t.isEmpty = false) :
    getToken c k = (t, c) := by
  unfold getToken
  rw [h]
  show (if t.isEmpty = true then mintToken c k else (t, c)) = (t, c)
  rw [ht]
  simp

/-- The master lemma for `getToken` from a well-formed dictionary: invariants
    are preserved, the dictionary only grows, and the returned token is a
    non-empty digit string bound to the key in both directions. -/
theorem getToken_spec (c : Conv) (k : Str) (hc : GoodConv c) :
    GoodConv (getToken c k).2 ∧ ConvExt c (getToken c k).2 ∧
    alook (getToken c k).2.keyToToken k = some (getToken c k).1 ∧
    alook (getToken c k).2.tokenToKey (getToken c k).1 = some k ∧
    (getToken c k).1 ≠ [] ∧ (∀ ch ∈ (getToken c k).1, isDigitCh ch = true) := by
  have hmint : ∀ hcase : alook c.keyToToken k = none ∨ alook c.keyToToken k = some [],
      GoodConv (mintToken c k).2 ∧ ConvExt c (mintToken c k).2 ∧
      alook (mintToken c k).2.keyToToken k = some (mintToken c k).1 ∧
      alook (mintToken c k).2.tokenToKey (mintToken c k).1 = some k ∧
      (mintToken c k).1 ≠ [] ∧ (∀ ch ∈ (mintToken c k).1, isDigitCh ch = true) := by
    intro hcase
    have hfresh : alook c.tokenToKey (padStart2 (intToStr c.nextTokenId)) = none := by
      cases hl : alook c.tokenToKey (padStart2 (intToStr c.nextTokenId)) with
      | none => rfl
      | some k' =>
        exfalso
        have := hc.bound _ k' hl c.nextTokenId (jsParseInt_mint_all c.nextTokenId)
        omega
    obtain ⟨htne, htdig⟩ := mintTok_digits c.nextTokenId hc.pos
    unfold mintToken
    simp only
    refine ⟨?_, ?_, ?_, ?_, htne, htdig⟩
    · constructor
      · intro k' t' hl
        by_cases hk : k' = k
        · subst hk
          rw [alook_aset_self] at hl
          injection hl with hl
          subst hl
          rw [alook_aset_self]
        · rw [alook_aset_ne _ _ _ _ hk] at hl
          have hinv := hc.inv k' t' hl
          have htne' : t' ≠ padStart2 (intToStr c.nextTokenId) := by
            intro he
            rw [he, hfresh] at hinv
            exact Option.noConfusion hinv
          rw [alook_aset_ne _ _ _ _ htne']
          exact hinv
      · intro t' k'' hl v hv
        by_cases ht : t' = padStart2 (intToStr c.nextTokenId)
        · subst ht
          rw [jsParseInt_mint_all] at hv
          injection hv with hv
          simp only
          omega
        · rw [alook_aset_ne _ _ _ _ ht] at hl
          have := hc.bound t' k'' hl v hv
          simp only
          omega
      · simp only
        have := hc.pos
        omega
      · intro k' t' hl ht'
        by_cases hk : k' = k
        · subst hk
          rw [alook_aset_self] at hl
          injection hl with hl
          subst hl
          exact htdig
        · rw [alook_aset_ne _ _ _ _ hk] at hl
          exact hc.digits k' t' hl ht'
    · refine ⟨?_, ?_, ?_⟩
      · intro k' t' hl ht'
        have hk : k' ≠ k := by
          intro he
          subst he
          rcases hcase with h | h
          · rw [h] at hl; exact Option.noConfusion hl
          · rw [h] at hl; injection hl with hl; exact ht' hl.symm
        rw [alook_aset_ne _ _ _ _ hk]
        exact hl
      · intro t' k'' hl
        have ht : t' ≠ padStart2 (intToStr c.nextTokenId) := by
          intro he
          rw [he, hfresh] at hl
          exact Option.noConfusion hl
        rw [alook_aset_ne _ _ _ _ ht]
        exact hl
      · simp only
        omega
    · exact alook_aset_self _ _ _
    · exact alook_aset_self _ _ _
  cases hl : alook c.keyToToken k with
  | none =>
    rw [getToken_eq_mint_none c k hl]
    exact hmint (Or.inl hl)
  | some t =>
    cases ht : t.isEmpty with
    | true =>
      have hte : t = [] := by
        cases t with
        | nil => rfl
        | cons a b => simp at ht
      rw [getToken_eq_mint_empty c k t hl ht]
      subst hte
      exact hmint (Or.inr hl)
    | false =>
      rw [getToken_eq_found c k t hl ht]
      have htne : t ≠ [] := by
        intro he
        subst he
        simp at ht
      exact ⟨hc, convExt_refl c, hl, hc.inv k t hl, htne, hc.digits k t hl htne⟩

/-! ### Unclassifiable lines -/

/-- C2: the source intends empty containers to render inline (lines 71 and
    132 return the bracket literals), but those return values are discarded at
    every call site, so an empty container emits nothing: at the root the
    output is empty, and after a key only the bare key line appears. -/
theorem c2_empty_containers_emit_nothing :
    (jsonToToon (mkConv []) (Json.arr [])).1 = [] ∧
    (jsonToToon (mkConv []) (Json.obj [])).1 = [] ∧
    (jsonToToon (mkConv []) (Json.obj [(("a").toList, Json.arr [])])).1
      = ("01:").toList ∧
    (jsonToToon (mkConv []) (Json.obj [(("a").toList, Json.obj [])])).1
      = ("01:").toList :=
  ⟨rfl, rfl, rfl, rfl⟩

/-- C3 counterexample: decoding the bare document `yes` does not yield `true`;
    the line is unclassifiable, so the result is the empty array. -/
theorem c3_counterexample :
    toonToJson (mkConv []) (("yes").toList) = Json.arr [] ∧
    Json.arr [] ≠ Json.bool true :=
  ⟨rfl, fun h => Json.noConfusion h⟩

/-- C3 amended: encoding booleans yields `yes`/`no` at the root and inline
    after a key, but decoding the bare document `yes` yields the empty array
    (the scalar-only line is dropped by pass 1). -/
theorem indentStr_zero : indentStr 0 = [] := rfl

theorem joinNl_single (l : Str) : joinNl [l] = l := rfl

/-- Encoding a one-entry object with a primitive value gives the single line
    `token: rendering`. -/
theorem jsonToToon_single_prim (c : Conv) (k : Str) (v : Json)
    (hp : isComplex v = false) :
    (jsonToToon c (Json.obj [(k, v)])).1 = (getToken c k).1 ++ ':' :: ' ' :: scalarRepr v := by
  rcases hgt : getToken c k with ⟨tok, c1⟩
  simp only [jsonToToon, process, List.isEmpty_cons, processObjEntries, hgt, hp,
    Bool.false_eq_true, if_false, List.append_nil, joinNl_single, indentStr_zero,
    List.nil_append]

/-- C3 amended: encoding booleans yields `yes`/`no` at the root and inline
    after a key, but decoding the bare document `yes` yields the empty array
    (the scalar-only line is dropped by pass 1). -/
theorem c3_amended (c c' : Conv) (k : Str) :
    (jsonToToon c (Json.bool true)).1 = ("yes").toList ∧
    (jsonToToon c (Json.bool false)).1 = ("no").toList ∧
    (jsonToToon c (Json.obj [(k, Json.bool true)])).1
      = (getToken c k).1 ++ (": yes").toList ∧
    (jsonToToon c (Json.obj [(k, Json.bool false)])).1
      = (getToken c k).1 ++ (": no").toList ∧
    toonToJson c' (("yes").toList) = Json.arr [] := by
  refine ⟨rfl, rfl, ?_, ?_, rfl⟩
  · rw [jsonToToon_single_prim c k (Json.bool true) rfl]
    rfl
  · rw [jsonToToon_single_prim c k (Json.bool false) rfl]
    rfl

theorem getKey_found (c : Conv) (t k : Str) (h : alook c.tokenToKey t = some k)
    (hk : k ≠ []) : getKey c t = k := by
  unfold getKey
  rw [h]
  show (if k.isEmpty = true then unknownTok t else k) = k
  rw [if_neg (by simp [hk])]

theorem getKey_missing (c : Conv) (t : Str) (h : alook c.tokenToKey t = none) :
    getKey c t = unknownTok t := by
  unfold getKey
  rw [h]

/-- C7 counterexample: a token registered to the empty-string key is treated
    like an unregistered one by the truthiness test `tokenToKey[token] || ...`,
    so `keyFor` does not return the registered key for every registered
    token. -/
theorem c7_counterexample :
    alook ((getToken (mkConv []) []).2).tokenToKey (("01").toList) = some [] ∧
    getKey ((getToken (mkConv []) []).2) (("01").toList) = ("UNKNOWN_01").toList ∧
    ("UNKNOWN_01").toList ≠ ([] : Str) :=
  ⟨rfl, rfl, by decide⟩

/-- C7 amended: `keyFor` returns the registered key for an exact token match
    whenever that key is non-empty; for an unregistered token (or one
    registered to the empty-string key) it returns the placeholder
    `UNKNOWN_<token>` instead of failing, and decoding `99: value` with an
    empty dictionary yields the object with key `UNKNOWN_99`. -/
theorem c7_amended :
    (∀ c t k, alook c.tokenToKey t = some k → k ≠ [] → getKey c t = k) ∧
    (∀ c t, alook c.tokenToKey t = none → getKey c t = unknownTok t) ∧
    toonToJson (mkConv []) (("99: value").toList)
      = Json.obj [(("UNKNOWN_99").toList, Json.str (("value").toList))] :=
  ⟨getKey_found, getKey_missing, rfl⟩

/-- C7 witness: a key actually registered by minting resolves back, and an
    unregistered token yields the placeholder. -/
theorem c7_witness :
    getKey ((getToken (mkConv []) (("a").toList)).2) (("01").toList) = ("a").toList ∧
    getKey (mkConv []) (("99").toList) = unknownTok (("99").toList) :=
  ⟨c7_amended.1 ((getToken (mkConv []) (("a").toList)).2) (("01").toList)
      (("a").toList) (by decide) (by decide),
    c7_amended.2.1 (mkConv []) (("99").toList) (by decide)⟩

/-! ### Encoder entry errors (C8) -/

/-- C8 counterexample: an in-memory JSON string value is indistinguishable
    from raw text at the entry (`typeof jsonInput === 'string'`), so with a
    parse behaving like `JSON.parse` on the non-JSON text `hello` (a parse
    exception, modelled as `none`), encode fails on a valid in-memory JSON
    value. -/
theorem c8_counterexample :
    jsonToToonEntry (fun _ => none) (mkConv [])
        (EncInput.val (Json.str (("hello").toList)))
      = Except.error (("Invalid JSON input").toList) := rfl

/-- C8 amended: encode never fails on a non-string in-memory JSON value; a
    string argument (raw text or in-memory string value, which the entry
    cannot distinguish) is parsed as JSON text and raises exactly the
    `Invalid JSON input` error if and only if parsing fails, with no output
    produced and the dictionary untouched in that case. -/
theorem c8_amended (parseJson : Str → Option Json) (c : Conv) :
    (∀ v : Json, (∀ s, v ≠ Json.str s) →
      jsonToToonEntry parseJson c (.val v) = .ok (jsonToToon c v)) ∧
    (∀ s, jsonToToonEntry parseJson c (.val (.str s))
      = jsonToToonEntry parseJson c (.raw s)) ∧
    (∀ s, parseJson s = none →
      jsonToToonEntry parseJson c (.raw s) = .error (("Invalid JSON input").toList)) ∧
    (∀ s v, parseJson s = some v →
      jsonToToonEntry parseJson c (.raw s) = .ok (jsonToToon c v)) := by
  refine ⟨?_, ?_, ?_, ?_⟩
  · intro v hv
    cases v with
    | str s => exact absurd rfl (hv s)
    | null => rfl
    | bool b => rfl
    | num n => rfl
    | arr xs => rfl
    | obj kvs => rfl
  · intro s
    rfl
  · intro s h
    show (match parseJson s with
      | none => Except.error (("Invalid JSON input").toList)
      | some v => Except.ok (jsonToToon c v)) =
        Except.error (("Invalid JSON input").toList)
    rw [h]
  · intro s v h
    show (match parseJson s with
      | none => Except.error (("Invalid JSON input").toList)
      | some v => Except.ok (jsonToToon c v)) = Except.ok (jsonToToon c v)
    rw [h]

/-- C8 witness: the error case at a concrete rejected string, and the success
    case at a concrete parsed value. -/
theorem c8_witness :
    jsonToToonEntry (fun _ => none) (mkConv []) (.raw (("x").toList))
        = .error (("Invalid JSON input").toList) ∧
    jsonToToonEntry (fun _ => some (Json.bool true)) (mkConv []) (.raw (("true").toList))
        = .ok (jsonToToon (mkConv []) (Json.bool true)) :=
  ⟨(c8_amended (fun _ => none) (mkConv [])).2.2.1 (("x").toList) rfl,
    (c8_amended (fun _ => some (Json.bool true)) (mkConv [])).2.2.2 (("true").toList)
      (Json.bool true) rfl⟩

/-! ### Token minting (C5, C6) -/

theorem isEmpty_false_of_ne_nil (l : Str) (h : l ≠ []) : l.isEmpty = false := by
  cases l with
  | nil => exact absurd rfl h
  | cons a t => rfl

theorem tokenToKey_fresh_of_bound (c : Conv) (hb : TokBound c) :
    alook c.tokenToKey (padStart2 (intToStr c.nextTokenId)) = none := by
  cases hl : alook c.tokenToKey (padStart2 (intToStr c.nextTokenId)) with
  | none => rfl
  | some k' =>
    exfalso
    have := hb _ k' hl c.nextTokenId (jsParseInt_mint_all c.nextTokenId)
    omega

/-- C5: `tokenFor` is idempotent — a second call with the same key returns
    the same token and the same (unmutated) dictionary; a key that already
    has a truthy token is returned without mutation; and on a missing key
    (in a state whose numeric tokens are below the counter, as in every
    reachable state) minting grows both mappings by exactly one entry. -/
theorem c5_tokenFor_idempotent_and_growth :
    (∀ c k, getToken (getToken c k).2 k = ((getToken c k).1, (getToken c k).2)) ∧
    (∀ c k t, alook c.keyToToken k = some t → t ≠ [] → getToken c k = (t, c)) ∧
    (∀ c k, TokBound c → alook c.keyToToken k = none →
      (getToken c k).2.keyToToken.length = c.keyToToken.length + 1 ∧
      (getToken c k).2.tokenToKey.length = c.tokenToKey.length + 1) := by
  have hfound : ∀ c k t, alook c.keyToToken k = some t → t ≠ [] →
      getToken c k = (t, c) := by
    intro c k t h ht
    exact getToken_eq_found c k t h (isEmpty_false_of_ne_nil t ht)
  have hmint2 : ∀ c k, getToken (mintToken c k).2 k =
      ((mintToken c k).1, (mintToken c k).2) := by
    intro c k
    have hlook : alook (mintToken c k).2.keyToToken k = some (mintToken c k).1 := by
      unfold mintToken
      exact alook_aset_self _ _ _
    exact hfound _ k _ hlook (padStart2_ne_nil_any _)
  refine ⟨?_, hfound, ?_⟩
  · intro c k
    cases hl : alook c.keyToToken k with
    | none =>
      rw [getToken_eq_mint_none c k hl]
      exact hmint2 c k
    | some t =>
      cases ht : t.isEmpty with
      | true =>
        rw [getToken_eq_mint_empty c k t hl ht]
        exact hmint2 c k
      | false =>
        rw [getToken_eq_found c k t hl ht]
        exact getToken_eq_found c k t hl ht
  · intro c k hb hl
    rw [getToken_eq_mint_none c k hl]
    unfold mintToken
    constructor
    · exact length_aset_fresh _ _ _ hl
    · exact length_aset_fresh _ _ _ (tokenToKey_fresh_of_bound c hb)

/-- C5 witness: minting a first key in a fresh converter grows both maps from
    zero entries to one. -/
theorem c5_witness :
    (getToken (mkConv []) (("a").toList)).2.keyToToken.length
        = (mkConv []).keyToToken.length + 1 ∧
    (getToken (mkConv []) (("a").toList)).2.tokenToKey.length
        = (mkConv []).tokenToKey.length + 1 :=
  c5_tokenFor_idempotent_and_growth.2.2 (mkConv []) (("a").toList)
    (fun _ k' h _ _ => Option.noConfusion h) rfl

theorem alook_mem {α : Type} (m : List (Str × α)) (k : Str) (v : α)
    (h : alook m k = some v) : (k, v) ∈ m := by
  induction m with
  | nil => exact Option.noConfusion h
  | cons p rest ih =>
    obtain ⟨p1, p2⟩ := p
    by_cases hp : p1 = k
    · simp only [alook, if_pos hp] at h
      injection h with h
      subst hp
      subst h
      exact List.mem_cons_self _ _
    · simp only [alook, if_neg hp] at h
      exact List.mem_cons.mpr (Or.inr (ih h))

theorem foldl_aset_lookup (t k : Str) :
    ∀ (init : List (Str × Str)) (acc : List (Str × Str)),
      (∀ p ∈ init, p.2 = t → p.1 = k) →
      ((∃ p ∈ init, p.2 = t) ∨ alook acc t = some k) →
      alook (init.foldl (fun acc kv => aset acc kv.2 kv.1) acc) t = some k := by
  intro init
  induction init with
  | nil =>
    intro acc _ hin
    rcases hin with ⟨p, hp, _⟩ | h
    · exact absurd hp (List.not_mem_nil p)
    · exact h
  | cons p rest ih =>
    intro acc hall hin
    simp only [List.foldl_cons]
    by_cases hp : p.2 = t
    · apply ih _ (fun q hq hqt => hall q (by simp [hq]) hqt)
      right
      rw [hp, hall p (by simp) hp]
      exact alook_aset_self _ _ _
    · apply ih _ (fun q hq hqt => hall q (by simp [hq]) hqt)
      rcases hin with ⟨q, hq, hqt⟩ | h
      · rcases List.mem_cons.mp hq with he | hm
        · exact absurd (he ▸ hqt) hp
        · exact Or.inl ⟨q, hm, hqt⟩
      · right
        rw [alook_aset_ne _ _ _ _ (fun he => hp he.symm)]
        exact h

theorem foldl_aset_src (t : Str) (k : Str) :
    ∀ (init : List (Str × Str)) (acc : List (Str × Str)),
      alook (init.foldl (fun acc kv => aset acc kv.2 kv.1) acc) t = some k →
      (∃ p ∈ init, p.2 = t) ∨ alook acc t = some k := by
  intro init
  induction init with
  | nil => intro acc h; exact Or.inr h
  | cons p rest ih =>
    intro acc h
    simp only [List.foldl_cons] at h
    rcases ih _ h with ⟨q, hq, hqt⟩ | h2
    · exact Or.inl ⟨q, by simp [hq], hqt⟩
    · by_cases hp : p.2 = t
      · exact Or.inl ⟨p, by simp, hp⟩
      · right
        rw [alook_aset_ne _ _ _ _ (fun he => hp he.symm)] at h2
        exact h2

theorem foldl_max_le_init (xs : List Int) (b : Int) : b ≤ xs.foldl max b := by
  induction xs generalizing b with
  | nil => exact le_refl b
  | cons y ys ih => exact le_trans (le_max_left b y) (ih (max b y))

theorem foldl_max_mem (xs : List Int) : ∀ (b v : Int), v ∈ xs → v ≤ xs.foldl max b := by
  induction xs with
  | nil => intro b v h; exact absurd h (List.not_mem_nil v)
  | cons y ys ih =>
    intro b v h
    rcases List.mem_cons.mp h with he | hm
    · subst he
      exact le_trans (le_max_right b v) (foldl_max_le_init ys (max b v))
    · exact ih (max b y) v hm

/-- The constructor establishes the counter bound for every initial map. -/
theorem mkConv_tokBound (init : List (Str × Str)) : TokBound (mkConv init) := by
  intro t k h v hv
  have hsrc := foldl_aset_src t k init [] h
  rcases hsrc with ⟨p, hp, hpt⟩ | habs
  · have hvmem : v ∈ init.filterMap (fun kv => jsParseInt kv.2) := by
      rw [List.mem_filterMap]
      exact ⟨p, hp, by rw [hpt, hv]⟩
    have hnext : (mkConv init).nextTokenId =
        (match init.filterMap (fun kv => jsParseInt kv.2) with
          | [] => 1
          | x :: xs => xs.foldl max x + 1) := rfl
    cases hids : init.filterMap (fun kv => jsParseInt kv.2) with
    | nil =>
      rw [hids] at hvmem
      exact absurd hvmem (List.not_mem_nil v)
    | cons x xs =>
      rw [hids] at hvmem hnext
      show v < (mkConv init).nextTokenId
      rw [hnext]
      show v < xs.foldl max x + 1
      rcases List.mem_cons.mp hvmem with he | hm
      · subst he
        have := foldl_max_le_init xs v
        omega
      · have := foldl_max_mem xs x v hm
        omega
  · exact Option.noConfusion habs

/-- C6 counterexample: an initial map that assigns the same token to two keys
    is accepted by the constructor, and the reverse map then fails to invert
    the forward map from the start (the reduce keeps the last key). -/
theorem c6_counterexample :
    alook (mkConv [((("a").toList), ("x").toList),
        ((("b").toList), ("x").toList)]).keyToToken (("a").toList)
      = some (("x").toList) ∧
    alook (mkConv [((("a").toList), ("x").toList),
        ((("b").toList), ("x").toList)]).tokenToKey (("x").toList)
      = some (("b").toList) ∧
    some (("b").toList) ≠ some (("a").toList) :=
  ⟨rfl, rfl, by decide⟩

/-- C6 amended: provided the supplied initial map assigns distinct tokens to
    distinct keys, the constructor establishes the inverse property; the
    counter bound holds for every initial map; `getToken` preserves the
    dictionary invariants and only extends the maps; an existing token binding
    is never reassigned; and a mint consumes exactly the current counter value
    (so successive mints carry strictly increasing numeric values). -/
theorem c6_amended :
    (∀ init : List (Str × Str), (∀ p ∈ init, ∀ q ∈ init, p.2 = q.2 → p.1 = q.1) →
      ∀ k t, alook (mkConv init).keyToToken k = some t →
        alook (mkConv init).tokenToKey t = some k) ∧
    (∀ init : List (Str × Str), TokBound (mkConv init)) ∧
    (∀ c k, GoodConv c → GoodConv (getToken c k).2 ∧ ConvExt c (getToken c k).2) ∧
    (∀ c k t k', TokBound c → alook c.tokenToKey t = some k' →
      alook (getToken c k).2.tokenToKey t = some k') ∧
    (∀ c k, alook c.keyToToken k = none →
      jsParseInt (getToken c k).1 = some c.nextTokenId ∧
      (getToken c k).2.nextTokenId = c.nextTokenId + 1) := by
  refine ⟨?_, mkConv_tokBound, ?_, ?_, ?_⟩
  · intro init hinj k t h
    have hmem : (k, t) ∈ init := alook_mem _ _ _ h
    show alook (init.foldl (fun acc kv => aset acc kv.2 kv.1) []) t = some k
    apply foldl_aset_lookup t k init []
    · intro p hp hpt
      exact hinj p hp (k, t) hmem hpt
    · exact Or.inl ⟨(k, t), hmem, rfl⟩
  · intro c k hc
    obtain ⟨h1, h2, _⟩ := getToken_spec c k hc
    exact ⟨h1, h2⟩
  · intro c k t k' hb hl
    have hne : t ≠ padStart2 (intToStr c.nextTokenId) := by
      intro he
      rw [he, tokenToKey_fresh_of_bound c hb] at hl
      exact Option.noConfusion hl
    cases hlk : alook c.keyToToken k with
    | none =>
      rw [getToken_eq_mint_none c k hlk]
      unfold mintToken
      simp only
      rw [alook_aset_ne _ _ _ _ hne]
      exact hl
    | some t' =>
      cases ht' : t'.isEmpty with
      | true =>
        rw [getToken_eq_mint_empty c k t' hlk ht']
        unfold mintToken
        simp only
        rw [alook_aset_ne _ _ _ _ hne]
        exact hl
      | false =>
        rw [getToken_eq_found c k t' hlk ht']
        exact hl
  · intro c k h
    rw [getToken_eq_mint_none c k h]
    exact ⟨jsParseInt_mint_all c.nextTokenId, rfl⟩

/-- C6 witness: in a fresh converter the first mint parses back to the seed
    counter value 1 and bumps the counter to 2. -/
theorem c6_witness :
    jsParseInt (getToken (mkConv []) (("a").toList)).1
        = some (mkConv []).nextTokenId ∧
    (getToken (mkConv []) (("a").toList)).2.nextTokenId
        = (mkConv []).nextTokenId + 1 :=
  c6_amended.2.2.2.2 (mkConv []) (("a").toList) rfl

/-! ### Parent resolution (C9) and the pass-1 stack -/

theorem addChild_indent (p q : Node) : (addChild p q).indent = p.indent := by
  cases p
  rfl

theorem collapseAux_cons (cur a : Node) (ys : List Node) :
    collapseAux cur (a :: ys) = collapseAux (addChild a cur) ys := rfl

theorem collapseAux_append_last (ys : List Node) :
    ∀ (cur q : Node), collapseAux cur (ys ++ [q]) = addChild q (collapseAux cur ys) := by
  induction ys with
  | nil => intro cur q; rfl
  | cons a ys' ih =>
    intro cur q
    rw [List.cons_append, collapseAux_cons, collapseAux_cons, ih]

theorem collapse_indent (ys : List Node) (T : Node) :
    (collapse (ys ++ [T])).indent = T.indent := by
  cases ys with
  | nil => rfl
  | cons a ys' =>
    show (collapseAux a (ys' ++ [T])).indent = T.indent
    rw [collapseAux_append_last ys' a T, addChild_indent]

theorem findParentAux_stop (i : Int) (cur : Node) (st : List Node)
    (h : cur.indent < i) : findParentAux i cur st = cur :: st := by
  cases st with
  | nil => rfl
  | cons a rest =>
    unfold findParentAux
    rw [if_neg (by omega)]

theorem findParentAux_run (i : Int) (sp : List Node) :
    ∀ (cur T : Node) (rest : List Node), i ≤ cur.indent →
      (∀ x ∈ sp, i ≤ x.indent) → T.indent < i →
      findParentAux i cur (sp ++ T :: rest) = collapseAux cur (sp ++ [T]) :: rest := by
  induction sp with
  | nil =>
    intro cur T rest hcur _ hT
    show findParentAux i cur (T :: rest) = collapseAux cur [T] :: rest
    unfold findParentAux
    rw [if_pos hcur]
    have : (addChild T cur).indent < i := by rw [addChild_indent]; exact hT
    rw [findParentAux_stop i _ rest this]
    rfl
  | cons a sp' ih =>
    intro cur T rest hcur hsp hT
    show findParentAux i cur (a :: (sp' ++ T :: rest)) = _
    unfold findParentAux
    rw [if_pos hcur]
    rw [ih (addChild a cur) T rest (by rw [addChild_indent]; exact hsp a (by simp))
      (fun x hx => hsp x (by simp [hx])) hT]
    rfl

theorem findParent_run (st : List Node) (i : Int) (sp : List Node) (T : Node)
    (rest : List Node) (hst : st = sp ++ T :: rest)
    (hsp : ∀ x ∈ sp, i ≤ x.indent) (hT : T.indent < i) :
    findParent st i = collapse (sp ++ [T]) :: rest := by
  subst hst
  cases sp with
  | nil =>
    show findParentAux i T rest = collapse [T] :: rest
    exact findParentAux_stop i T rest hT
  | cons a sp' =>
    show findParentAux i a (sp' ++ T :: rest) = _
    rw [findParentAux_run i sp' a T rest (hsp a (by simp))
      (fun x hx => hsp x (by simp [hx])) hT]
    rfl

/-- Every stack that bottoms out at the indentation -1 sentinel splits, for a
    line indentation of at least 0, into popped nodes of indentation at least
    `i` and a first node strictly below `i`. -/
theorem stack_split (i : Int) (hi : 0 ≤ i) :
    ∀ st : List Node, st.getLast?.map Node.indent = some (-1) →
      ∃ popped parent rest, st = popped ++ parent :: rest ∧
        (∀ x ∈ popped, i ≤ x.indent) ∧ parent.indent < i := by
  intro st
  induction st with
  | nil => intro h; simp at h
  | cons a st' ih =>
    intro h
    by_cases ha : a.indent < i
    · exact ⟨[], a, st', rfl, by simp, ha⟩
    · cases hst' : st' with
      | nil =>
        exfalso
        subst hst'
        simp only [List.getLast?_singleton, Option.map_some] at h
        injection h with h
        omega
      | cons b st'' =>
        have hlast : st'.getLast?.map Node.indent = some (-1) := by
          rw [← h, hst']
          simp [List.getLast?_cons_cons]
        rw [← hst'] at *
        obtain ⟨popped, parent, rest, he, hp, hpar⟩ := ih hlast
        exact ⟨a :: popped, parent, rest, by rw [he]; rfl, by
          intro x hx
          rcases List.mem_cons.mp hx with hxa | hxm
          · subst hxa; omega
          · exact hp x hxm, hpar⟩

/-- C9: parent resolution always terminates at a node below the new
    indentation — the stack of pending nodes bottoms out at the synthetic
    root of indentation -1, every node of indentation at least `i` is popped
    (each becoming the last child of its predecessor, which `collapse`
    captures), the first node below `i` becomes the parent, and the new node
    is pushed on top of it. -/
theorem c9_parent_resolution (st : List Node) (i : Int) (n : Node)
    (hbot : st.getLast?.map Node.indent = some (-1)) (hi : 0 ≤ i)
    (hn : n.indent = i) :
    ∃ popped parent rest,
      st = popped ++ parent :: rest ∧
      (∀ x ∈ popped, i ≤ x.indent) ∧
      parent.indent < i ∧
      findParent st i = collapse (popped ++ [parent]) :: rest ∧
      (collapse (popped ++ [parent])).indent = parent.indent ∧
      pushNode st n = n :: collapse (popped ++ [parent]) :: rest := by
  obtain ⟨popped, parent, rest, he, hp, hpar⟩ := stack_split i hi st hbot
  refine ⟨popped, parent, rest, he, hp, hpar, ?_, collapse_indent popped parent, ?_⟩
  · exact findParent_run st i popped parent rest he hp hpar
  · unfold pushNode
    rw [hn, findParent_run st i popped parent rest he hp hpar]

/-- C9 witness: resolving a parent for indentation 0 on a stack holding one
    node of indentation 2 above the root pops that node into the root. -/
theorem c9_witness :
    ∃ popped parent rest,
      [Node.mk 2 none (some (("v").toList)) [] true, rootNode]
        = popped ++ parent :: rest ∧
      (∀ x ∈ popped, (0 : Int) ≤ x.indent) ∧
      parent.indent < 0 ∧
      findParent [Node.mk 2 none (some (("v").toList)) [] true, rootNode] 0
        = collapse (popped ++ [parent]) :: rest ∧
      (collapse (popped ++ [parent])).indent = parent.indent ∧
      pushNode [Node.mk 2 none (some (("v").toList)) [] true, rootNode]
          (Node.mk 0 none none [] true)
        = Node.mk 0 none none [] true :: collapse (popped ++ [parent]) :: rest :=
  c9_parent_resolution _ 0 (Node.mk 0 none none [] true) rfl (by omega) rfl

/-! ### Block algebra for pass 1 -/

